import Mathlib

/-!
Verification development for a Yacc/Bison-style grammar round-trip tool
(lexer `src/lexer.rs`, parser `src/parser.rs`, printer `src/display.rs`).

The lexer is modelled as a scanner over a `List Char` with absolute
character positions (the source inputs of interest are ASCII, where the
Rust byte offsets coincide with character indices).  The Rust iterator
`Lexer::next` is a loop that either skips whitespace/comments and
continues, emits one spanned token, or terminates; it is embedded as
`tokStep`, a fuel-indexed function (the fuel `rest.length + 1` is always
sufficient, which is proved, so the embedding is faithful).  Termination
of the whole tokenizer is by construction.

The shapes of `Grammar`, `Directive`, `Rule`, `Alternative`, `Token` and
`Spanned` live in `grammar.rs`/`token.rs`, which are not part of the
provided sources; every field and variant used below is reconstructed
exactly from their uses in `parser.rs`, `display.rs` and `lexer.rs`.

`panic!` calls in `parser.rs` are modelled as `Except.error` values whose
constructors carry exactly the data interpolated into the Rust panic
message.
-/

namespace YaccRT

/-- The single-quote character (codepoint 39). -/
def qc : Char := Char.ofNat 39

/-- The single-quote character as a string. -/
def qs : String := String.singleton qc

/-- The opening-brace character (codepoint 123). -/
def lbrace : Char := Char.ofNat 123

/-- The closing-brace character (codepoint 125). -/
def rbrace : Char := Char.ofNat 125

/-- Token kinds, from the `Token` enum as used by `lexer.rs` and
`parser.rs` (`Char`, `Err`, `Equal`, `Number`, `String`, `PercentPercent`,
`Epilogue`, `Prologue`, `Directive`, `Bar`, `Colon`, `SemiColon`, `Code`,
`Ident`, `Type`). -/
inductive Token where
  | quotedChar
  | err
  | equal
  | number
  | strLit
  | percentPercent
  | epilogue
  | prologue
  | directive
  | bar
  | colon
  | semiColon
  | code
  | ident
  | typeName
deriving DecidableEq, Repr

/-- A token with its half-open span `[start, stop)`, mirroring
`Spanned<Token>` (`data` plus `span`). -/
structure Spanned where
  tok : Token
  start : Nat
  stop : Nat
deriving DecidableEq, Repr

/-- One emission record of the scanner: the position at which
`Lexer::next` was entered (everything in `[skipStart, start)` was skipped
as whitespace or comments), plus the emitted token's span. -/
structure Item where
  skipStart : Nat
  start : Nat
  stop : Nat
  tok : Token
deriving DecidableEq, Repr

/-- Result of one call to `Lexer::next`: either a token plus the new
lexer state, or iterator exhaustion.  On exhaustion, `skipEnd` is the
position up to which the final characters were legitimately skipped as
whitespace/comments, and `dropped` counts characters that were consumed
without belonging to any token span or skip region (this happens for a
lone `/` or `%` at end of input, where `self.chars.next()?` returns
`None` out of the whole iterator). -/
inductive Step where
  | tok (t : Spanned) (rest : List Char) (pos : Nat) (ppc : Nat)
  | ended (skipEnd : Nat) (dropped : Nat)
  | fuelOut
deriving DecidableEq, Repr

/-- Line comment body: consume through (and including) the next newline,
or to end of input (the `for` loop in the `'/' '/'` arm). -/
def skipLine : List Char → Nat → List Char × Nat
  | [], p => ([], p)
  | c :: cs, p => if c = '\n' then (cs, p + 1) else skipLine cs (p + 1)

/-- Block comment body: consume through the matching `*/`; `none` means
end of input was reached first (the Rust code then breaks out of the
outer loop with `Token::Err`). -/
def skipBlock : List Char → Nat → Option (List Char × Nat)
  | [], _ => none
  | c :: cs, p =>
    if c = '*' then
      match cs with
      | [] => none
      | d :: cs' => if d = '/' then some (cs', p + 2) else skipBlock cs (p + 1)
    else skipBlock cs (p + 1)

/-- String literal body after the opening `"`: consume until the closing
`"`; at end of input the token is `Err`. -/
def scanStr : List Char → Nat → Token × List Char × Nat
  | [], p => (.err, [], p)
  | c :: cs, p => if c = '"' then (.strLit, cs, p + 1) else scanStr cs (p + 1)

/-- Prologue body after the opening `%` `{`: consume until the literal
sequence `%}`; at end of input the token is `Err`. -/
def scanPrologue : List Char → Nat → Token × List Char × Nat
  | [], p => (.err, [], p)
  | c :: cs, p =>
    if c = '%' then
      match cs with
      | [] => (.err, [], p + 1)
      | d :: cs' => if d = rbrace then (.prologue, cs', p + 2) else scanPrologue cs (p + 1)
    else scanPrologue cs (p + 1)

/-- Balanced-brace scan after the opening `{`, with current nesting depth
`d` (starting at 1); at end of input the token is `Err`. -/
def scanCode : List Char → Nat → Nat → Token × List Char × Nat
  | [], p, _ => (.err, [], p)
  | c :: cs, p, d =>
    if c = lbrace then scanCode cs (p + 1) (d + 1)
    else if c = rbrace then
      if d = 1 then (.code, cs, p + 1) else scanCode cs (p + 1) (d - 1)
    else scanCode cs (p + 1) d

/-- Greedy run of decimal digits (the `Number` token tail). -/
def takeDigits : List Char → Nat → List Char × Nat
  | [], p => ([], p)
  | c :: cs, p => if c.isDigit then takeDigits cs (p + 1) else (c :: cs, p)

/-- Greedy run of letters, digits and `_` (the `Ident` token tail). -/
def identTail : List Char → Nat → List Char × Nat
  | [], p => ([], p)
  | c :: cs, p =>
    if c.isAlpha ∨ c.isDigit ∨ c = '_' then identTail cs (p + 1) else (c :: cs, p)

/-- Greedy run of letters, digits, `_` and `-` (the `Directive` token
tail after `%letter`). -/
def dirTail : List Char → Nat → List Char × Nat
  | [], p => ([], p)
  | c :: cs, p =>
    if c.isAlpha ∨ c.isDigit ∨ c = '_' ∨ c = '-' then dirTail cs (p + 1) else (c :: cs, p)

/-- Angle-bracket type-name body after the opening `<`: letters, digits
and `_` until `>`; any other character (consumed) or end of input gives
`Err`. -/
def scanType : List Char → Nat → Token × List Char × Nat
  | [], p => (.err, [], p)
  | c :: cs, p =>
    if c.isAlpha ∨ c.isDigit ∨ c = '_' then scanType cs (p + 1)
    else if c = '>' then (.typeName, cs, p + 1)
    else (.err, cs, p + 1)

/-- One call of `Lexer::next` on state (remaining input `rest`, absolute
position `pos`, separator count `ppc`).  `fuel` bounds the
skip-and-continue iterations of the internal loop; `rest.length + 1`
always suffices (proved below as part of the coverage theorem).  Each
arm mirrors the corresponding match arm of the Rust `next`. -/
def tokStep : Nat → List Char → Nat → Nat → Step
  | 0, _, _, _ => .fuelOut
  | _ + 1, [], pos, _ => .ended pos 0
  | fuel + 1, c :: cs, pos, ppc =>
    if c = qc then
      -- '<char>' : one char then a closing quote, otherwise Err
      match cs with
      | [] => .tok ⟨.err, pos, pos + 1⟩ [] (pos + 1) ppc
      | _ :: [] => .tok ⟨.err, pos, pos + 2⟩ [] (pos + 2) ppc
      | _ :: y :: cs' =>
        if y = qc then .tok ⟨.quotedChar, pos, pos + 3⟩ cs' (pos + 3) ppc
        else .tok ⟨.err, pos, pos + 3⟩ cs' (pos + 3) ppc
    else if c = '/' then
      match cs with
      | [] => .ended pos 1
      | d :: cs' =>
        if d = '/' then
          let r := skipLine cs' (pos + 2)
          tokStep fuel r.1 r.2 ppc
        else if d = '*' then
          match skipBlock cs' (pos + 2) with
          | some (r, p) => tokStep fuel r p ppc
          | none => .tok ⟨.err, pos, pos + 2 + cs'.length⟩ [] (pos + 2 + cs'.length) ppc
        else .tok ⟨.err, pos, pos + 2⟩ cs' (pos + 2) ppc
    else if c = '\n' ∨ c = ' ' ∨ c = '\t' then
      tokStep fuel cs (pos + 1) ppc
    else if c = '=' then .tok ⟨.equal, pos, pos + 1⟩ cs (pos + 1) ppc
    else if c.isDigit then
      let r := takeDigits cs (pos + 1)
      .tok ⟨.number, pos, r.2⟩ r.1 r.2 ppc
    else if c = '"' then
      let r := scanStr cs (pos + 1)
      .tok ⟨r.1, pos, r.2.2⟩ r.2.1 r.2.2 ppc
    else if c = '%' then
      match cs with
      | [] => .ended pos 1
      | d :: cs' =>
        if d = '%' then
          if ppc + 1 ≥ 2 then
            .tok ⟨.epilogue, pos, pos + 2 + cs'.length⟩ [] (pos + 2 + cs'.length) (ppc + 1)
          else .tok ⟨.percentPercent, pos, pos + 2⟩ cs' (pos + 2) (ppc + 1)
        else if d = lbrace then
          let r := scanPrologue cs' (pos + 2)
          .tok ⟨r.1, pos, r.2.2⟩ r.2.1 r.2.2 ppc
        else if d.isAlpha then
          let r := dirTail cs' (pos + 2)
          .tok ⟨.directive, pos, r.2⟩ r.1 r.2 ppc
        else .tok ⟨.err, pos, pos + 2⟩ cs' (pos + 2) ppc
    else if c = '|' then .tok ⟨.bar, pos, pos + 1⟩ cs (pos + 1) ppc
    else if c = ':' then .tok ⟨.colon, pos, pos + 1⟩ cs (pos + 1) ppc
    else if c = ';' then .tok ⟨.semiColon, pos, pos + 1⟩ cs (pos + 1) ppc
    else if c = lbrace then
      let r := scanCode cs (pos + 1) 1
      .tok ⟨r.1, pos, r.2.2⟩ r.2.1 r.2.2 ppc
    else if c.isAlpha then
      let r := identTail cs (pos + 1)
      .tok ⟨.ident, pos, r.2⟩ r.1 r.2 ppc
    else if c = '<' then
      let r := scanType cs (pos + 1)
      .tok ⟨r.1, pos, r.2.2⟩ r.2.1 r.2.2 ppc
    else .tok ⟨.err, pos, pos + 1⟩ cs (pos + 1) ppc

/-- Drive the lexer to exhaustion, collecting the emission records.
Returns the items, the end of the final skip region, and the number of
dropped characters.  `fuel` bounds the number of emitted tokens;
`rest.length + 1` suffices (each token consumes at least one
character). -/
def runLex : Nat → List Char → Nat → Nat → List Item × Nat × Nat
  | 0, _, pos, _ => ([], pos, 0)
  | fuel + 1, rest, pos, ppc =>
    match tokStep (rest.length + 1) rest pos ppc with
    | .tok t r p c =>
      let q := runLex fuel r p c
      (⟨pos, t.start, t.stop, t.tok⟩ :: q.1, q.2.1, q.2.2)
    | .ended se dr => ([], se, dr)
    | .fuelOut => ([], pos, 0)

/-- Full tokenization of a source string: emission records plus the final
skip end and dropped count. -/
def tokenizeFull (s : String) : List Item × Nat × Nat :=
  runLex (s.length + 1) s.toList 0 0

/-- The emitted token sequence of a source string (what the iterator
yields). -/
def tokens (s : String) : List Spanned :=
  (tokenizeFull s).1.map fun it => ⟨it.tok, it.start, it.stop⟩

/-- Check that the emission records chain contiguously from position `p`
to position `e`: each record starts its skip region exactly where the
previous token ended, and spans are well-formed and in order. -/
def chainB : Nat → List Item → Nat → Bool
  | p, [], e => decide (p ≤ e)
  | p, it :: rest, e =>
    decide (it.skipStart = p) && decide (p ≤ it.start) && decide (it.start ≤ it.stop) &&
      chainB it.stop rest e

/-- The tokenizer's claimed coverage property for one input: token spans
plus skipped whitespace/comment regions tile the whole input (the final
skip region reaches the end of input and no byte is dropped). -/
def coversExactly (s : String) : Bool :=
  chainB 0 (tokenizeFull s).1 (tokenizeFull s).2.1 && ((tokenizeFull s).2.1 == s.length)

/-- Directive variants, from the `Directive` enum as used by `parser.rs`
and `display.rs` (`PureParser`, `Expect`, `NamePrefix`, `Locations`,
`ParseParam`, `LexProgram`, `Union`, `Type`, `Token`, `Left`, `Right`,
`NonAssoc`). -/
inductive Directive where
  | pureParser
  | expect (number : Nat)
  | namePre (pre : String)
  | locations
  | parseParam (params : String)
  | lexProgram (params : String)
  | union (code : String)
  | type (typeName : String) (ruleNames : List String)
  | token (tokenName : Option String) (ruleNames : List String)
  | left (ruleNames : List String)
  | right (ruleNames : List String)
  | nonAssoc (ruleNames : List String)
deriving DecidableEq, Repr

/-- One right-hand-side alternative of a rule: elements, optional
precedence name, optional action code block (braces included). -/
structure Alternative where
  elements : List String
  precedence : Option String
  action : Option String
deriving DecidableEq, Repr

/-- A production rule: left-hand-side name and its alternatives. -/
structure Rule where
  name : String
  alternatives : List Alternative
deriving DecidableEq, Repr

/-- The grammar document, in the field order of `Parser::parse_grammar`'s
`Grammar { directives, rules, prologues, epilogue }`. -/
structure Grammar where
  directives : List Directive
  rules : List Rule
  prologues : List String
  epilogue : String
deriving DecidableEq, Repr

/-- Parser failure values.  `parser.rs` fails by aborting the process;
each constructor carries exactly the data the corresponding abort
formats: `expectFail` the expected kind, actual kind, actual text and
byte offset (from `Parser::expect`); `unknownDirective` and `badPrec`
the offending text; `badTerminator` the found kind (from the
alternative-terminator check); `unexpectedEnd` models an `unwrap()` of
an exhausted token iterator.  `outOfFuel` is an artifact of the fuel
parameter on the parsing loops; the fuel supplied by `parseGrammar`
suffices on every input that occurs in the theorems below. -/
inductive PError where
  | unexpectedEnd
  | expectFail (expected : Token) (actual : Token) (text : String) (offset : Nat)
  | unknownDirective (text : String)
  | badPrec (text : String)
  | badTerminator (found : Token)
  | outOfFuel
deriving DecidableEq, Repr

/-- Slice of the source text by a token span (Rust `&self.input[span]`,
with character positions standing in for byte offsets on ASCII input). -/
def sliceStr (input : List Char) (start stop : Nat) : String :=
  String.mk ((input.drop start).take (stop - start))

/-- `Parser::expect`: consume the next token and require its kind;
a mismatch aborts with the expected kind, actual kind, actual text and
byte offset. -/
def expect (input : List Char) (k : Token) :
    List Spanned → Except PError (Spanned × List Spanned)
  | [] => .error .unexpectedEnd
  | t :: ts =>
    if t.tok = k then .ok (t, ts)
    else .error (.expectFail k t.tok (sliceStr input t.start t.stop) t.start)

/-- The `while let Some(ident) = self.rule_name()` loops: consume
identifiers and quoted characters while the next token is one, collecting
their texts.  Also models the elements loop of `parse_rule`, whose body
is the same peek-and-dispatch on `Ident`/`Char`. -/
def ruleNamesLoop (input : List Char) :
    List Spanned → Except PError (List String × List Spanned)
  | [] => .error .unexpectedEnd
  | t :: ts =>
    if t.tok = Token.ident ∨ t.tok = Token.quotedChar then
      match ruleNamesLoop input ts with
      | .ok (ns, r) => .ok (sliceStr input t.start t.stop :: ns, r)
      | .error e => .error e
    else .ok ([], t :: ts)

/-- The rule-name loop of the `%type` arm, which accepts only `Ident`
tokens (`if !matches!(self.peek().data, Token::Ident) { break; }`). -/
def typeRuleNames (input : List Char) :
    List Spanned → Except PError (List String × List Spanned)
  | [] => .error .unexpectedEnd
  | t :: ts =>
    if t.tok = Token.ident then
      match typeRuleNames input ts with
      | .ok (ns, r) => .ok (sliceStr input t.start t.stop :: ns, r)
      | .error e => .error e
    else .ok ([], t :: ts)

/-- Digit-run text to a natural number (Rust `parse::<usize>().unwrap()`
on a `Number` token's text; the text is a nonempty digit run). -/
def parseNat (s : String) : Nat :=
  s.toList.foldl (fun a c => a * 10 + (c.toNat - 48)) 0

/-- `Parser::parse_prologue`: the stored text is the token's slice with
2 characters trimmed from the front and 1 from the back
(`self.input[prologue.span.start + 2..prologue.span.end - 1]`). -/
def parsePrologue (input : List Char) (ts : List Spanned) :
    Except PError (String × List Spanned) :=
  match expect input .prologue ts with
  | .error e => .error e
  | .ok (p, ts) => .ok (sliceStr input (p.start + 2) (p.stop - 1), ts)

/-- `Parser::parse_directive`, dispatching on the directive token's
text. -/
def parseDirective (input : List Char) (ts : List Spanned) :
    Except PError (Directive × List Spanned) :=
  match expect input .directive ts with
  | .error e => .error e
  | .ok (d, ts) =>
    match sliceStr input d.start d.stop with
    | "%pure-parser" => .ok (.pureParser, ts)
    | "%expect" =>
      match expect input .number ts with
      | .error e => .error e
      | .ok (n, ts) => .ok (.expect (parseNat (sliceStr input n.start n.stop)), ts)
    | "%name-prefix" =>
      match expect input .equal ts with
      | .error e => .error e
      | .ok (_, ts) =>
        match expect input .strLit ts with
        | .error e => .error e
        | .ok (p, ts) => .ok (.namePre (sliceStr input p.start p.stop), ts)
    | "%locations" => .ok (.locations, ts)
    | "%parse-param" =>
      match expect input .code ts with
      | .error e => .error e
      | .ok (c, ts) => .ok (.parseParam (sliceStr input c.start c.stop), ts)
    | "%lex-param" =>
      match expect input .code ts with
      | .error e => .error e
      | .ok (c, ts) => .ok (.lexProgram (sliceStr input c.start c.stop), ts)
    | "%union" =>
      match expect input .code ts with
      | .error e => .error e
      | .ok (c, ts) => .ok (.union (sliceStr input c.start c.stop), ts)
    | "%type" =>
      match expect input .typeName ts with
      | .error e => .error e
      | .ok (tn, ts) =>
        match typeRuleNames input ts with
        | .error e => .error e
        | .ok (ns, r) => .ok (.type (sliceStr input tn.start tn.stop) ns, r)
    | "%token" =>
      match ts with
      | [] => .error .unexpectedEnd
      | t :: ts' =>
        if t.tok = Token.typeName then
          match ruleNamesLoop input ts' with
          | .error e => .error e
          | .ok (ns, r) => .ok (.token (some (sliceStr input t.start t.stop)) ns, r)
        else
          match ruleNamesLoop input (t :: ts') with
          | .error e => .error e
          | .ok (ns, r) => .ok (.token none ns, r)
    | "%left" =>
      match ruleNamesLoop input ts with
      | .error e => .error e
      | .ok (ns, r) => .ok (.left ns, r)
    | "%right" =>
      match ruleNamesLoop input ts with
      | .error e => .error e
      | .ok (ns, r) => .ok (.right ns, r)
    | "%nonassoc" =>
      match ruleNamesLoop input ts with
      | .error e => .error e
      | .ok (ns, r) => .ok (.nonAssoc ns, r)
    | other => .error (.unknownDirective other)

/-- `Parser::parse_head`: alternate directives and prologue blocks until
the next token is neither.  Fueled; each iteration consumes at least one
token. -/
def parseHead (input : List Char) :
    Nat → List Spanned → Except PError ((List Directive × List String) × List Spanned)
  | 0, _ => .error .outOfFuel
  | _, [] => .error .unexpectedEnd
  | fuel + 1, t :: ts =>
    match t.tok with
    | .directive =>
      match parseDirective input (t :: ts) with
      | .error e => .error e
      | .ok (d, r) =>
        match parseHead input fuel r with
        | .error e => .error e
        | .ok ((ds, ps), r') => .ok ((d :: ds, ps), r')
    | .prologue =>
      match parsePrologue input (t :: ts) with
      | .error e => .error e
      | .ok (p, r) =>
        match parseHead input fuel r with
        | .error e => .error e
        | .ok ((ds, ps), r') => .ok ((ds, p :: ps), r')
    | _ => .ok (([], []), t :: ts)

/-- The optional `%prec name` of an alternative: if the next token is a
directive it must spell `%prec` and be followed by an identifier. -/
def parsePrec (input : List Char) (ts : List Spanned) :
    Except PError (Option String × List Spanned) :=
  match ts with
  | [] => .error .unexpectedEnd
  | t :: ts' =>
    if t.tok = Token.directive then
      let dtext := sliceStr input t.start t.stop
      if dtext = "%prec" then
        match expect input .ident ts' with
        | .error e => .error e
        | .ok (p, r) => .ok (some (sliceStr input p.start p.stop), r)
      else .error (.badPrec dtext)
    else .ok (none, t :: ts')

/-- The optional action of an alternative: a single code-block token,
stored as the exact source slice including braces. -/
def parseAction (input : List Char) (ts : List Spanned) :
    Except PError (Option String × List Spanned) :=
  match ts with
  | [] => .error .unexpectedEnd
  | t :: ts' =>
    if t.tok = Token.code then .ok (some (sliceStr input t.start t.stop), ts')
    else .ok (none, t :: ts')

/-- The alternatives loop of `Parser::parse_rule`: elements, optional
precedence, optional action, then `|` to continue or `;` to stop; any
other token kind aborts with just that kind (the `_ => ...` arm of the
terminator check). -/
def parseAlts (input : List Char) :
    Nat → List Spanned → Except PError (List Alternative × List Spanned)
  | 0, _ => .error .outOfFuel
  | fuel + 1, ts =>
    match ruleNamesLoop input ts with
    | .error e => .error e
    | .ok (elems, ts) =>
      match parsePrec input ts with
      | .error e => .error e
      | .ok (pr, ts) =>
        match parseAction input ts with
        | .error e => .error e
        | .ok (act, ts) =>
          match ts with
          | [] => .error .unexpectedEnd
          | t :: ts' =>
            match t.tok with
            | .bar =>
              match parseAlts input fuel ts' with
              | .error e => .error e
              | .ok (alts, r) => .ok (⟨elems, pr, act⟩ :: alts, r)
            | .semiColon => .ok ([⟨elems, pr, act⟩], ts')
            | _ => .error (.badTerminator t.tok)

/-- `Parser::parse_rule`: identifier name, colon, alternatives. -/
def parseRule (input : List Char) (fuel : Nat) (ts : List Spanned) :
    Except PError (Rule × List Spanned) :=
  match expect input .ident ts with
  | .error e => .error e
  | .ok (n, ts) =>
    match expect input .colon ts with
    | .error e => .error e
    | .ok (_, ts) =>
      match parseAlts input fuel ts with
      | .error e => .error e
      | .ok (alts, r) => .ok (⟨sliceStr input n.start n.stop, alts⟩, r)

/-- `Parser::parse_rules`: rules while the next token is an
identifier. -/
def parseRules (input : List Char) :
    Nat → List Spanned → Except PError (List Rule × List Spanned)
  | 0, _ => .error .outOfFuel
  | _, [] => .error .unexpectedEnd
  | fuel + 1, t :: ts =>
    if t.tok = Token.ident then
      match parseRule input (fuel + 1) (t :: ts) with
      | .error e => .error e
      | .ok (r, rest) =>
        match parseRules input fuel rest with
        | .error e => .error e
        | .ok (rs, rest') => .ok (r :: rs, rest')
    else .ok ([], t :: ts)

/-- `Parser::parse_epilogue`: the stored text is the token's slice
starting 2 characters after the span start
(`self.input[epilogue.span.start + 2..epilogue.span.end]`). -/
def parseEpilogue (input : List Char) (ts : List Spanned) :
    Except PError (String × List Spanned) :=
  match expect input .epilogue ts with
  | .error e => .error e
  | .ok (ep, ts) => .ok (sliceStr input (ep.start + 2) ep.stop, ts)

/-- `Parser::parse_grammar`: head, separator, rules, epilogue. -/
def parseGrammar (input : List Char) (ts : List Spanned) : Except PError Grammar :=
  let n := ts.length + 1
  match parseHead input n ts with
  | .error e => .error e
  | .ok ((ds, ps), ts) =>
    match expect input .percentPercent ts with
    | .error e => .error e
    | .ok (_, ts) =>
      match parseRules input n ts with
      | .error e => .error e
      | .ok (rs, ts) =>
        match parseEpilogue input ts with
        | .error e => .error e
        | .ok (ep, _) => .ok ⟨ds, rs, ps, ep⟩

/-- The public entry point: tokenize, then parse. -/
def parse (s : String) : Except PError Grammar :=
  parseGrammar s.toList (tokens s)

/-- Finish one line whose characters are accumulated in reverse: strip a
trailing carriage return (Rust strips `\r` only when it precedes the
`\n` that ended the line). -/
def finishLine (acc : List Char) : String :=
  match acc with
  | '\x0d' :: rest => String.mk rest.reverse
  | _ => String.mk acc.reverse

/-- Worker for `rustLines`: split at `\n`, final line ending optional. -/
def linesAux : List Char → List Char → List String
  | [], acc => if acc.isEmpty then [] else [String.mk acc.reverse]
  | c :: cs, acc =>
    if c = '\n' then finishLine acc :: linesAux cs [] else linesAux cs (c :: acc)

/-- Rust `str::lines()`: the lines of a string, split at line endings,
with the final line ending optional. -/
def rustLines (s : String) : List String :=
  linesAux s.toList []

/-- `Display for Alternative`: a leading space before each element, then
the optional ` %prec name`, then the optional action. -/
def renderAlt (a : Alternative) : String :=
  String.join (a.elements.map (" " ++ ·)) ++
    (match a.precedence with
     | some p => " %prec " ++ p
     | none => "") ++
    (match a.action with
     | some act => " " ++ act
     | none => "")

/-- `Display for Rule`: the name and a colon, one `    |`-prefixed line
per alternative, then `;`. -/
def renderRule (r : Rule) : String :=
  r.name ++ ":\n" ++
    String.join (r.alternatives.map fun a => "    |" ++ renderAlt a ++ "\n") ++
    ";\n"

/-- `Display for Directive`: each arm ends with the newline written by
its `writeln!`. -/
def renderDirective : Directive → String
  | .pureParser => "%pure-parser\n"
  | .expect n => "%expect " ++ toString n ++ "\n"
  | .namePre p => "%name-prefix=\"" ++ p ++ "\"\n"
  | .locations => "%locations\n"
  | .parseParam s => "%parse-param \x7b " ++ s ++ " \x7d\n"
  | .lexProgram s => "%lex-param \x7b " ++ s ++ " \x7d\n"
  | .union s => "%union \x7b " ++ s ++ " \x7d\n"
  | .type tn ns => "%type " ++ tn ++ String.join (ns.map (" " ++ ·)) ++ "\n"
  | .token tn ns =>
    "%token" ++
      (match tn with
       | some t => " " ++ t
       | none => "") ++
      String.join (ns.map (" " ++ ·)) ++ "\n"
  | .left ns => "%left" ++ String.join (ns.map (" " ++ ·)) ++ "\n"
  | .right ns => "%right" ++ String.join (ns.map (" " ++ ·)) ++ "\n"
  | .nonAssoc ns => "%nonassoc" ++ String.join (ns.map (" " ++ ·)) ++ "\n"

/-- `Display for Grammar`: each directive via `writeln!` (adding a second
newline after the directive's own), a `%%` line, each rule via `writeln!`
(likewise), a `%%` line, then the epilogue's lines each on a line of its
own.  The stored prologues are not printed. -/
def render (g : Grammar) : String :=
  String.join (g.directives.map fun d => renderDirective d ++ "\n") ++
    "%%\n" ++
    String.join (g.rules.map fun r => renderRule r ++ "\n") ++
    "%%\n" ++
    String.join ((rustLines g.epilogue).map (· ++ "\n"))

/-! ### Scanner bookkeeping lemmas

Each helper scanner advances the position by exactly the number of
characters it consumes and returns a suffix of its input. -/

theorem skipLine_spec : ∀ (cs : List Char) (p : Nat),
    p ≤ (skipLine cs p).2 ∧
    (skipLine cs p).2 + (skipLine cs p).1.length = p + cs.length ∧
    (skipLine cs p).1 <:+ cs := by
  intro cs
  induction cs with
  | nil => intro p; rw [skipLine]; exact ⟨le_refl _, rfl, List.suffix_refl _⟩
  | cons c cs ih =>
    intro p
    rw [skipLine]
    by_cases h : c = '\n'
    · rw [if_pos h]
      exact ⟨by omega, by simp only [List.length_cons]; omega, List.suffix_cons _ _⟩
    · rw [if_neg h]
      obtain ⟨h1, h2, h3⟩ := ih (p + 1)
      exact ⟨by omega, by simp only [List.length_cons]; omega, h3.trans (List.suffix_cons _ _)⟩

theorem skipBlock_spec : ∀ (cs : List Char) (p : Nat) (r : List Char) (p' : Nat),
    skipBlock cs p = some (r, p') →
    p ≤ p' ∧ p' + r.length = p + cs.length ∧ r <:+ cs := by
  intro cs
  induction cs with
  | nil => intro p r p' h; rw [skipBlock.eq_def] at h; exact absurd h (by simp)
  | cons c cs ih =>
    intro p r p' h
    rw [skipBlock.eq_def] at h
    dsimp only at h
    by_cases hc : c = '*'
    · rw [if_pos hc] at h
      match cs, ih, h with
      | [], _, h => exact absurd h (by simp)
      | d :: cs', ih, h =>
        dsimp only at h
        by_cases hd : d = '/'
        · rw [if_pos hd] at h
          obtain ⟨rfl, rfl⟩ : r = cs' ∧ p + 2 = p' := by
            simpa [Prod.ext_iff, eq_comm] using h
          exact ⟨by omega, by simp only [List.length_cons]; omega,
            (List.suffix_cons _ _).trans (List.suffix_cons _ _)⟩
        · rw [if_neg hd] at h
          obtain ⟨h1, h2, h3⟩ := ih (p + 1) r p' h
          exact ⟨by omega, by simp only [List.length_cons] at h2 ⊢; omega,
            h3.trans (List.suffix_cons _ _)⟩
    · rw [if_neg hc] at h
      obtain ⟨h1, h2, h3⟩ := ih (p + 1) r p' h
      exact ⟨by omega, by simp only [List.length_cons]; omega,
        h3.trans (List.suffix_cons _ _)⟩

theorem scanStr_spec : ∀ (cs : List Char) (p : Nat),
    p ≤ (scanStr cs p).2.2 ∧
    (scanStr cs p).2.2 + (scanStr cs p).2.1.length = p + cs.length ∧
    (scanStr cs p).2.1 <:+ cs ∧
    ((scanStr cs p).1 = .strLit ∨ (scanStr cs p).1 = .err) := by
  intro cs
  induction cs with
  | nil => intro p; rw [scanStr]; exact ⟨le_refl _, rfl, List.suffix_refl _, Or.inr rfl⟩
  | cons c cs ih =>
    intro p
    rw [scanStr]
    by_cases h : c = '"'
    · rw [if_pos h]
      dsimp only
      exact ⟨by omega, by simp only [List.length_cons]; omega, List.suffix_cons _ _, Or.inl rfl⟩
    · rw [if_neg h]
      obtain ⟨h1, h2, h3, h4⟩ := ih (p + 1)
      exact ⟨by omega, by simp only [List.length_cons]; omega,
        h3.trans (List.suffix_cons _ _), h4⟩

theorem scanPrologue_spec : ∀ (cs : List Char) (p : Nat),
    p ≤ (scanPrologue cs p).2.2 ∧
    (scanPrologue cs p).2.2 + (scanPrologue cs p).2.1.length = p + cs.length ∧
    (scanPrologue cs p).2.1 <:+ cs ∧
    ((scanPrologue cs p).1 = .prologue ∨ (scanPrologue cs p).1 = .err) := by
  intro cs
  induction cs with
  | nil =>
    intro p; rw [scanPrologue.eq_def]
    exact ⟨le_refl _, rfl, List.suffix_refl _, Or.inr rfl⟩
  | cons c cs ih =>
    intro p
    rw [scanPrologue.eq_def]
    dsimp only
    by_cases hc : c = '%'
    · rw [if_pos hc]
      match cs, ih with
      | [], _ =>
        dsimp only
        exact ⟨by omega, by simp, List.nil_suffix, Or.inr rfl⟩
      | d :: cs', ih =>
        dsimp only
        by_cases hd : d = rbrace
        · rw [if_pos hd]
          dsimp only
          exact ⟨by omega, by simp only [List.length_cons]; omega,
            (List.suffix_cons _ _).trans (List.suffix_cons _ _), Or.inl rfl⟩
        · rw [if_neg hd]
          obtain ⟨h1, h2, h3, h4⟩ := ih (p + 1)
          exact ⟨by omega, by simp only [List.length_cons] at h2 ⊢; omega,
            h3.trans (List.suffix_cons _ _), h4⟩
    · rw [if_neg hc]
      obtain ⟨h1, h2, h3, h4⟩ := ih (p + 1)
      exact ⟨by omega, by simp only [List.length_cons]; omega,
        h3.trans (List.suffix_cons _ _), h4⟩

theorem scanCode_spec : ∀ (cs : List Char) (p d : Nat),
    p ≤ (scanCode cs p d).2.2 ∧
    (scanCode cs p d).2.2 + (scanCode cs p d).2.1.length = p + cs.length ∧
    (scanCode cs p d).2.1 <:+ cs ∧
    ((scanCode cs p d).1 = .code ∨ (scanCode cs p d).1 = .err) := by
  intro cs
  induction cs with
  | nil => intro p d; rw [scanCode]; exact ⟨le_refl _, rfl, List.suffix_refl _, Or.inr rfl⟩
  | cons c cs ih =>
    intro p d
    rw [scanCode]
    by_cases h1 : c = lbrace
    · rw [if_pos h1]
      obtain ⟨g1, g2, g3, g4⟩ := ih (p + 1) (d + 1)
      exact ⟨by omega, by simp only [List.length_cons]; omega,
        g3.trans (List.suffix_cons _ _), g4⟩
    · rw [if_neg h1]
      by_cases h2 : c = rbrace
      · rw [if_pos h2]
        by_cases h3 : d = 1
        · rw [if_pos h3]
          dsimp only
          exact ⟨by omega, by simp only [List.length_cons]; omega,
            List.suffix_cons _ _, Or.inl rfl⟩
        · rw [if_neg h3]
          obtain ⟨g1, g2, g3, g4⟩ := ih (p + 1) (d - 1)
          exact ⟨by omega, by simp only [List.length_cons]; omega,
            g3.trans (List.suffix_cons _ _), g4⟩
      · rw [if_neg h2]
        obtain ⟨g1, g2, g3, g4⟩ := ih (p + 1) d
        exact ⟨by omega, by simp only [List.length_cons]; omega,
          g3.trans (List.suffix_cons _ _), g4⟩

theorem takeDigits_spec : ∀ (cs : List Char) (p : Nat),
    p ≤ (takeDigits cs p).2 ∧
    (takeDigits cs p).2 + (takeDigits cs p).1.length = p + cs.length ∧
    (takeDigits cs p).1 <:+ cs := by
  intro cs
  induction cs with
  | nil => intro p; rw [takeDigits]; exact ⟨le_refl _, rfl, List.suffix_refl _⟩
  | cons c cs ih =>
    intro p
    rw [takeDigits]
    by_cases h : c.isDigit
    · rw [if_pos h]
      obtain ⟨h1, h2, h3⟩ := ih (p + 1)
      exact ⟨by omega, by simp only [List.length_cons]; omega, h3.trans (List.suffix_cons _ _)⟩
    · rw [if_neg h]
      exact ⟨le_refl _, rfl, List.suffix_refl _⟩

theorem identTail_spec : ∀ (cs : List Char) (p : Nat),
    p ≤ (identTail cs p).2 ∧
    (identTail cs p).2 + (identTail cs p).1.length = p + cs.length ∧
    (identTail cs p).1 <:+ cs := by
  intro cs
  induction cs with
  | nil => intro p; rw [identTail]; exact ⟨le_refl _, rfl, List.suffix_refl _⟩
  | cons c cs ih =>
    intro p
    rw [identTail]
    by_cases h : c.isAlpha = true ∨ c.isDigit = true ∨ c = '_'
    · rw [if_pos h]
      obtain ⟨h1, h2, h3⟩ := ih (p + 1)
      exact ⟨by omega, by simp only [List.length_cons]; omega, h3.trans (List.suffix_cons _ _)⟩
    · rw [if_neg h]
      exact ⟨le_refl _, rfl, List.suffix_refl _⟩

theorem dirTail_spec : ∀ (cs : List Char) (p : Nat),
    p ≤ (dirTail cs p).2 ∧
    (dirTail cs p).2 + (dirTail cs p).1.length = p + cs.length ∧
    (dirTail cs p).1 <:+ cs := by
  intro cs
  induction cs with
  | nil => intro p; rw [dirTail]; exact ⟨le_refl _, rfl, List.suffix_refl _⟩
  | cons c cs ih =>
    intro p
    rw [dirTail]
    by_cases h : c.isAlpha = true ∨ c.isDigit = true ∨ c = '_' ∨ c = '-'
    · rw [if_pos h]
      obtain ⟨h1, h2, h3⟩ := ih (p + 1)
      exact ⟨by omega, by simp only [List.length_cons]; omega, h3.trans (List.suffix_cons _ _)⟩
    · rw [if_neg h]
      exact ⟨le_refl _, rfl, List.suffix_refl _⟩

theorem scanType_spec : ∀ (cs : List Char) (p : Nat),
    p ≤ (scanType cs p).2.2 ∧
    (scanType cs p).2.2 + (scanType cs p).2.1.length = p + cs.length ∧
    (scanType cs p).2.1 <:+ cs ∧
    ((scanType cs p).1 = .typeName ∨ (scanType cs p).1 = .err) := by
  intro cs
  induction cs with
  | nil => intro p; rw [scanType]; exact ⟨le_refl _, rfl, List.suffix_refl _, Or.inr rfl⟩
  | cons c cs ih =>
    intro p
    rw [scanType]
    by_cases h1 : c.isAlpha = true ∨ c.isDigit = true ∨ c = '_'
    · rw [if_pos h1]
      obtain ⟨g1, g2, g3, g4⟩ := ih (p + 1)
      exact ⟨by omega, by simp only [List.length_cons]; omega,
        g3.trans (List.suffix_cons _ _), g4⟩
    · rw [if_neg h1]
      by_cases h2 : c = '>'
      · rw [if_pos h2]
        dsimp only
        exact ⟨by omega, by simp only [List.length_cons]; omega,
          List.suffix_cons _ _, Or.inl rfl⟩
      · rw [if_neg h2]
        dsimp only
        exact ⟨by omega, by simp only [List.length_cons]; omega,
          List.suffix_cons _ _, Or.inr rfl⟩

/-- A nonempty suffix determines the last element. -/
theorem suffix_getLast {r rest : List Char} (hs : r <:+ rest) (hne : r ≠ []) :
    rest.getLast? = r.getLast? := by
  obtain ⟨t, rfl⟩ := hs
  exact List.getLast?_append_of_ne_nil t hne

/-- A token equal to one of two non-epilogue kinds is not the epilogue
kind. -/
theorem tok_ne_epilogue {t a b : Token} (h : t = a ∨ t = b)
    (ha : ¬a = Token.epilogue) (hb : ¬b = Token.epilogue) :
    ¬t = Token.epilogue := by
  rcases h with h | h <;> rw [h] <;> assumption

/-- Soundness of one `Lexer::next` call from position `pos` with
remaining input `rest`: an emitted token's span starts no earlier than
`pos` (the gap is the skipped whitespace/comments), is nonempty, ends at
the new position, consumes exactly the position advance, leaves a suffix
of the input, and an epilogue token drains the input; on exhaustion the
skip end and dropped count add up to the end of input, at most one
character is dropped, and a drop only happens when the input ends in `/`
or `%`. -/
def StepOK (rest : List Char) (pos : Nat) : Step → Prop
  | .tok ⟨tk, strt, stp⟩ r p _ =>
      pos ≤ strt ∧ strt < stp ∧ stp = p ∧
      p + r.length = pos + rest.length ∧ r <:+ rest ∧ (tk = .epilogue → r = [])
  | .ended se dr =>
      pos ≤ se ∧ se + dr = pos + rest.length ∧ dr ≤ 1 ∧
      (dr = 1 → rest.getLast? = some '/' ∨ rest.getLast? = some '%')
  | .fuelOut => False

/-- `StepOK` transfers along a completed skip: if the step is sound from
the state after skipping, it is sound from the state before. -/
theorem StepOK.weaken {rest rest' : List Char} {pos pos' : Nat}
    (hs : rest' <:+ rest) (hp : pos ≤ pos')
    (hl : pos' + rest'.length = pos + rest.length) :
    ∀ {st : Step}, StepOK rest' pos' st → StepOK rest pos st := by
  intro st hok
  match st with
  | .tok ⟨tk, strt, stp⟩ r p c =>
    obtain ⟨h1, h2, h3, h4, h5, h6⟩ := hok
    exact ⟨le_trans hp h1, h2, h3, by omega, h5.trans hs, h6⟩
  | .ended se dr =>
    obtain ⟨h1, h2, h3, h4⟩ := hok
    refine ⟨le_trans hp h1, by omega, h3, fun hdr => ?_⟩
    have hne : rest' ≠ [] := by
      intro he
      rw [he] at h2
      simp only [List.length_nil] at h2
      omega
    rw [suffix_getLast hs hne]
    exact h4 hdr
  | .fuelOut => exact hok.elim

/-- Every call of `Lexer::next` with sufficient fuel is sound. -/
theorem tokStep_spec : ∀ (fuel : Nat) (rest : List Char) (pos ppc : Nat),
    rest.length < fuel → StepOK rest pos (tokStep fuel rest pos ppc) := by
  intro fuel
  induction fuel with
  | zero => intro rest pos ppc h; exact absurd h (Nat.not_lt_zero _)
  | succ fuel ih =>
    intro rest pos ppc h
    rcases rest with _ | ⟨c, cs⟩
    · exact ⟨le_refl _, by simp, by omega, fun h01 => absurd h01 (by decide)⟩
    · rw [tokStep.eq_def]
      dsimp only
      by_cases h1 : c = qc
      · rw [if_pos h1]
        rcases cs with _ | ⟨x, _ | ⟨y, cs'⟩⟩
        · exact ⟨le_refl _, by omega, rfl, by simp, List.nil_suffix, fun hh => rfl⟩
        · exact ⟨le_refl _, by omega, rfl, by simp, List.nil_suffix, fun hh => rfl⟩
        · dsimp only
          by_cases hy : y = qc
          · rw [if_pos hy]
            refine ⟨le_refl _, by omega, rfl, by simp only [List.length_cons]; omega,
              ?_, fun hh => absurd hh (by decide)⟩
            exact ((List.suffix_cons y cs').trans (List.suffix_cons x _)).trans
              (List.suffix_cons c _)
          · rw [if_neg hy]
            refine ⟨le_refl _, by omega, rfl, by simp only [List.length_cons]; omega,
              ?_, fun hh => absurd hh (by decide)⟩
            exact ((List.suffix_cons y cs').trans (List.suffix_cons x _)).trans
              (List.suffix_cons c _)
      rw [if_neg h1]
      by_cases h2 : c = '/'
      · rw [if_pos h2]
        rcases cs with _ | ⟨d, cs'⟩
        · refine ⟨le_refl _, by simp, by omega, fun _ => Or.inl ?_⟩
          rw [h2]
          simp
        · dsimp only
          by_cases hd1 : d = '/'
          · rw [if_pos hd1]
            obtain ⟨g1, g2, g3⟩ := skipLine_spec cs' (pos + 2)
            have hlen : (skipLine cs' (pos + 2)).1.length < fuel := by
              have hle := g3.length_le
              simp only [List.length_cons] at h
              omega
            have hrec := ih (skipLine cs' (pos + 2)).1 (skipLine cs' (pos + 2)).2 ppc hlen
            exact hrec.weaken
              (g3.trans ((List.suffix_cons d cs').trans (List.suffix_cons c _)))
              (by omega) (by simp only [List.length_cons]; omega)
          · rw [if_neg hd1]
            by_cases hd2 : d = '*'
            · rw [if_pos hd2]
              split
              next r p hsb =>
                obtain ⟨g1, g2, g3⟩ := skipBlock_spec cs' (pos + 2) r p hsb
                have hlen : r.length < fuel := by
                  have hle := g3.length_le
                  simp only [List.length_cons] at h
                  omega
                have hrec := ih r p ppc hlen
                exact hrec.weaken
                  (g3.trans ((List.suffix_cons d cs').trans (List.suffix_cons c _)))
                  (by omega) (by simp only [List.length_cons]; omega)
              next hsb =>
                exact ⟨le_refl _, by omega, rfl,
                  by simp only [List.length_cons, List.length_nil]; omega,
                  List.nil_suffix, fun hh => absurd hh (by decide)⟩
            · rw [if_neg hd2]
              exact ⟨le_refl _, by omega, rfl, by simp only [List.length_cons]; omega,
                (List.suffix_cons d cs').trans (List.suffix_cons c _),
                fun hh => absurd hh (by decide)⟩
      rw [if_neg h2]
      by_cases h3 : c = '\n' ∨ c = ' ' ∨ c = '\t'
      · rw [if_pos h3]
        have hrec := ih cs (pos + 1) ppc (by simp only [List.length_cons] at h; omega)
        exact hrec.weaken (List.suffix_cons c cs) (by omega)
          (by simp only [List.length_cons]; omega)
      rw [if_neg h3]
      by_cases h4 : c = '='
      · rw [if_pos h4]
        exact ⟨le_refl _, by omega, rfl, by simp only [List.length_cons]; omega,
          List.suffix_cons c cs, fun hh => absurd hh (by decide)⟩
      rw [if_neg h4]
      by_cases h5 : c.isDigit = true
      · rw [if_pos h5]
        obtain ⟨g1, g2, g3⟩ := takeDigits_spec cs (pos + 1)
        exact ⟨le_refl _, by omega, rfl, by simp only [List.length_cons]; omega,
          g3.trans (List.suffix_cons c cs), fun hh => absurd hh (by decide)⟩
      rw [if_neg h5]
      by_cases h6 : c = '"'
      · rw [if_pos h6]
        obtain ⟨g1, g2, g3, g4⟩ := scanStr_spec cs (pos + 1)
        exact ⟨le_refl _, by omega, rfl, by simp only [List.length_cons]; omega,
          g3.trans (List.suffix_cons c cs),
          fun hh => absurd hh (tok_ne_epilogue g4 (by decide) (by decide))⟩
      rw [if_neg h6]
      by_cases h7 : c = '%'
      · rw [if_pos h7]
        rcases cs with _ | ⟨d, cs'⟩
        · refine ⟨le_refl _, by simp, by omega, fun _ => Or.inr ?_⟩
          rw [h7]
          simp
        · dsimp only
          by_cases hd1 : d = '%'
          · rw [if_pos hd1]
            by_cases hppc : ppc + 1 ≥ 2
            · rw [if_pos hppc]
              exact ⟨le_refl _, by omega, rfl,
                by simp only [List.length_cons, List.length_nil]; omega,
                List.nil_suffix, fun _ => rfl⟩
            · rw [if_neg hppc]
              exact ⟨le_refl _, by omega, rfl, by simp only [List.length_cons]; omega,
                (List.suffix_cons d cs').trans (List.suffix_cons c _),
                fun hh => absurd hh (by decide)⟩
          · rw [if_neg hd1]
            by_cases hd2 : d = lbrace
            · rw [if_pos hd2]
              obtain ⟨g1, g2, g3, g4⟩ := scanPrologue_spec cs' (pos + 2)
              exact ⟨le_refl _, by omega, rfl, by simp only [List.length_cons]; omega,
                g3.trans ((List.suffix_cons d cs').trans (List.suffix_cons c _)),
                fun hh => absurd hh (tok_ne_epilogue g4 (by decide) (by decide))⟩
            · rw [if_neg hd2]
              by_cases hd3 : d.isAlpha = true
              · rw [if_pos hd3]
                obtain ⟨g1, g2, g3⟩ := dirTail_spec cs' (pos + 2)
                exact ⟨le_refl _, by omega, rfl, by simp only [List.length_cons]; omega,
                  g3.trans ((List.suffix_cons d cs').trans (List.suffix_cons c _)),
                  fun hh => absurd hh (by decide)⟩
              · rw [if_neg hd3]
                exact ⟨le_refl _, by omega, rfl, by simp only [List.length_cons]; omega,
                  (List.suffix_cons d cs').trans (List.suffix_cons c _),
                  fun hh => absurd hh (by decide)⟩
      rw [if_neg h7]
      by_cases h8 : c = '|'
      · rw [if_pos h8]
        exact ⟨le_refl _, by omega, rfl, by simp only [List.length_cons]; omega,
          List.suffix_cons c cs, fun hh => absurd hh (by decide)⟩
      rw [if_neg h8]
      by_cases h9 : c = ':'
      · rw [if_pos h9]
        exact ⟨le_refl _, by omega, rfl, by simp only [List.length_cons]; omega,
          List.suffix_cons c cs, fun hh => absurd hh (by decide)⟩
      rw [if_neg h9]
      by_cases h10 : c = ';'
      · rw [if_pos h10]
        exact ⟨le_refl _, by omega, rfl, by simp only [List.length_cons]; omega,
          List.suffix_cons c cs, fun hh => absurd hh (by decide)⟩
      rw [if_neg h10]
      by_cases h11 : c = lbrace
      · rw [if_pos h11]
        obtain ⟨g1, g2, g3, g4⟩ := scanCode_spec cs (pos + 1) 1
        exact ⟨le_refl _, by omega, rfl, by simp only [List.length_cons]; omega,
          g3.trans (List.suffix_cons c cs),
          fun hh => absurd hh (tok_ne_epilogue g4 (by decide) (by decide))⟩
      rw [if_neg h11]
      by_cases h12 : c.isAlpha = true
      · rw [if_pos h12]
        obtain ⟨g1, g2, g3⟩ := identTail_spec cs (pos + 1)
        exact ⟨le_refl _, by omega, rfl, by simp only [List.length_cons]; omega,
          g3.trans (List.suffix_cons c cs), fun hh => absurd hh (by decide)⟩
      rw [if_neg h12]
      by_cases h13 : c = '<'
      · rw [if_pos h13]
        obtain ⟨g1, g2, g3, g4⟩ := scanType_spec cs (pos + 1)
        exact ⟨le_refl _, by omega, rfl, by simp only [List.length_cons]; omega,
          g3.trans (List.suffix_cons c cs),
          fun hh => absurd hh (tok_ne_epilogue g4 (by decide) (by decide))⟩
      rw [if_neg h13]
      exact ⟨le_refl _, by omega, rfl, by simp only [List.length_cons]; omega,
        List.suffix_cons c cs, fun hh => absurd hh (by decide)⟩

/-- A true chain from `p` to `e` implies `p ≤ e`. -/
theorem chainB_le : ∀ (items : List Item) (p e : Nat), chainB p items e = true → p ≤ e := by
  intro items
  induction items with
  | nil =>
    intro p e h
    rw [chainB] at h
    exact of_decide_eq_true h
  | cons it items ih =>
    intro p e h
    rw [chainB] at h
    simp only [Bool.and_eq_true, decide_eq_true_eq] at h
    obtain ⟨⟨⟨hss, h1⟩, h2⟩, h3⟩ := h
    have := ih it.stop e h3
    omega

/-- Soundness of the lexer driver: from any sound state, the collected
emission records chain contiguously from the start position to the final
skip end, the final skip end plus the dropped count reaches the end of
input, at most one character is dropped, and a drop only happens when the
input ends in `/` or `%`. -/
theorem runLex_spec : ∀ (fuel : Nat) (rest : List Char) (pos ppc : Nat),
    rest.length < fuel →
    chainB pos (runLex fuel rest pos ppc).1 (runLex fuel rest pos ppc).2.1 = true ∧
    (runLex fuel rest pos ppc).2.1 + (runLex fuel rest pos ppc).2.2 = pos + rest.length ∧
    (runLex fuel rest pos ppc).2.2 ≤ 1 ∧
    ((runLex fuel rest pos ppc).2.2 = 1 →
      rest.getLast? = some '/' ∨ rest.getLast? = some '%') := by
  intro fuel
  induction fuel with
  | zero => intro rest pos ppc h; exact absurd h (Nat.not_lt_zero _)
  | succ fuel ih =>
    intro rest pos ppc h
    have hok := tokStep_spec (rest.length + 1) rest pos ppc (Nat.lt_succ_self _)
    rcases hstep : tokStep (rest.length + 1) rest pos ppc with ⟨⟨tk, strt, stp⟩, r, p, c⟩ | ⟨se, dr⟩ | _
    · rw [hstep] at hok
      obtain ⟨h1, h2, h3, h4, h5, h6⟩ := hok
      subst stp
      rw [runLex.eq_def]
      dsimp only
      rw [hstep]
      dsimp only
      have hlen : r.length < fuel := by omega
      obtain ⟨i1, i2, i3, i4⟩ := ih r p c hlen
      refine ⟨?_, by omega, i3, fun hdr => ?_⟩
      · rw [chainB]
        simp only [Bool.and_eq_true, decide_eq_true_eq]
        exact ⟨⟨⟨trivial, h1⟩, le_of_lt h2⟩, i1⟩
      · have hse := chainB_le _ _ _ i1
        have hne : r ≠ [] := by
          intro he
          have hzero : r.length = 0 := by rw [he]; rfl
          omega
        rw [suffix_getLast h5 hne]
        exact i4 hdr
    · rw [hstep] at hok
      obtain ⟨h1, h2, h3, h4⟩ := hok
      rw [runLex.eq_def]
      dsimp only
      rw [hstep]
      dsimp only
      refine ⟨?_, h2, h3, h4⟩
      rw [chainB]
      exact decide_eq_true h1
    · rw [hstep] at hok
      exact hok.elim

/-- In the collected emission records, an epilogue token is always the
last record and its span ends at the end of input. -/
theorem runLex_epilogue : ∀ (fuel : Nat) (rest : List Char) (pos ppc : Nat),
    rest.length < fuel →
    ∀ (pre : List Item) (it : Item) (post : List Item),
      (runLex fuel rest pos ppc).1 = pre ++ it :: post →
      it.tok = .epilogue → post = [] ∧ it.stop = pos + rest.length := by
  intro fuel
  induction fuel with
  | zero => intro rest pos ppc h; exact absurd h (Nat.not_lt_zero _)
  | succ fuel ih =>
    intro rest pos ppc h
    have hok := tokStep_spec (rest.length + 1) rest pos ppc (Nat.lt_succ_self _)
    rcases hstep : tokStep (rest.length + 1) rest pos ppc with ⟨⟨tk, strt, stp⟩, r, p, c⟩ | ⟨se, dr⟩ | _
    · rw [hstep] at hok
      obtain ⟨h1, h2, h3, h4, h5, h6⟩ := hok
      subst stp
      rw [runLex.eq_def]
      dsimp only
      rw [hstep]
      dsimp only
      intro pre it post heq he
      rcases pre with _ | ⟨i0, pre⟩
      · simp only [List.nil_append, List.cons.injEq] at heq
        obtain ⟨hit, hpost⟩ := heq
        subst hit
        dsimp only at he
        have hr : r = [] := h6 he
        subst hr
        simp only [List.length_nil] at h4
        have hfuel1 : 1 ≤ fuel := by omega
        rcases fuel with _ | fuel
        · exact absurd hfuel1 (by omega)
        · have hq : (runLex (fuel + 1) [] p c).1 = [] := rfl
          rw [hq] at hpost
          exact ⟨hpost.symm, by dsimp only; omega⟩
      · simp only [List.cons_append, List.cons.injEq] at heq
        obtain ⟨hi0, hrest⟩ := heq
        have hlen : r.length < fuel := by omega
        obtain ⟨hp1, hp2⟩ := ih r p c hlen pre it post hrest he
        exact ⟨hp1, by omega⟩
    · rw [runLex.eq_def]
      dsimp only
      rw [hstep]
      dsimp only
      intro pre it post heq he
      rcases pre with _ | ⟨a, pre⟩ <;> simp at heq
    · rw [hstep] at hok
      exact hok.elim

deriving instance DecidableEq for Except

/-! ### Claim theorems -/

/-- C2: the tokenizer counts `%%` occurrences; on the first it emits a
plain separator token, and from the second on it instead consumes all
remaining input unconditionally and emits a single epilogue token
spanning from that point to the end of input.  Consequently, in an input
whose token stream contains two `%%` occurrences, the first tokenizes as
a separator and everything from the second onward — including further
`%%` text — is one epilogue token. -/
theorem c2_separator_semantics :
    (∀ (fuel : Nat) (cs : List Char) (pos : Nat),
      tokStep (fuel + 1) ('%' :: '%' :: cs) pos 0 =
        .tok ⟨.percentPercent, pos, pos + 2⟩ cs (pos + 2) 1) ∧
    (∀ (fuel : Nat) (cs : List Char) (pos ppc : Nat),
      tokStep (fuel + 1) ('%' :: '%' :: cs) pos (ppc + 1) =
        .tok ⟨.epilogue, pos, pos + 2 + cs.length⟩ [] (pos + 2 + cs.length) (ppc + 2)) ∧
    tokens "%%a%%b%%" =
      [⟨.percentPercent, 0, 2⟩, ⟨.ident, 2, 3⟩, ⟨.epilogue, 3, 8⟩] := by
  refine ⟨fun fuel cs pos => rfl, fun fuel cs pos ppc => ?_, by decide⟩
  rw [tokStep.eq_def]
  simp [qc, lbrace]

/-- C3 (amended): for every input string the tokenizer terminates and
the emission records chain contiguously — each token's skip region
starts where the previous token ended, spans are in order without
overlap — and the covered region plus the dropped count reaches the end
of input, where at most one final character is dropped (consumed without
being part of a token span or a skip region), and this happens only when
the input ends in `/` or `%`. -/
theorem c3_coverage (s : String) :
    chainB 0 (tokenizeFull s).1 (tokenizeFull s).2.1 = true ∧
    (tokenizeFull s).2.1 + (tokenizeFull s).2.2 = s.length ∧
    ((tokenizeFull s).2.2 = 0 ∨
      ((tokenizeFull s).2.2 = 1 ∧
        (s.toList.getLast? = some '/' ∨ s.toList.getLast? = some '%'))) := by
  unfold tokenizeFull
  have hlen : s.toList.length = s.length := rfl
  obtain ⟨a1, a2, a3, a4⟩ := runLex_spec (s.length + 1) s.toList 0 0 (by omega)
  refine ⟨a1, by omega, ?_⟩
  rcases Nat.le_one_iff_eq_zero_or_eq_one.mp a3 with h0 | h1
  · exact Or.inl h0
  · exact Or.inr ⟨h1, a4 h1⟩

/-- C3 counterexample: on the input `/` the tokenizer emits no token and
no whitespace/comment skip region covers the single byte — the `/` is
consumed and dropped, so the spans plus skipped regions do not cover the
input. -/
theorem c3_coverage_cex :
    coversExactly "/" = false ∧ tokens "/" = [] ∧ ("/" : String).length = 1 ∧
    tokenizeFull "/" = ([], 0, 1) := by decide

/-- C9: the code block `{ a { b } c }` is tokenized as exactly one
code-block token spanning the full outer braces (the balanced-brace scan
tracks nesting and does not stop at the inner closing brace), and an
unterminated brace run produces an error token. -/
theorem c9_braces :
    tokens "\x7b a \x7b b \x7d c \x7d" = [⟨.code, 0, 13⟩] ∧
    tokens "\x7b a \x7b" = [⟨.err, 0, 5⟩] := by decide

/-- C10: if the tokenizer emits an epilogue token, it is the final item
of the token sequence: its span ends at the input's length and no
further token follows it. -/
theorem c10_epilogue_last (s : String) (pre : List Spanned) (t : Spanned)
    (post : List Spanned) (heq : tokens s = pre ++ t :: post)
    (he : t.tok = Token.epilogue) : post = [] ∧ t.stop = s.length := by
  have hlen : s.toList.length = s.length := rfl
  unfold tokens tokenizeFull at heq
  obtain ⟨a, b, hab, hmapa, hmapb⟩ := List.append_eq_map_iff.mp heq.symm
  obtain ⟨it, b', hb, hfit, hmapb'⟩ := List.map_eq_cons_iff.mp hmapb
  subst hb
  have htt : (⟨it.tok, it.start, it.stop⟩ : Spanned) = t := hfit
  have hitok : it.tok = Token.epilogue := by
    rw [← htt] at he
    exact he
  obtain ⟨hpost, hstop⟩ :=
    runLex_epilogue (s.length + 1) s.toList 0 0 (by omega) a it b' hab hitok
  constructor
  · rw [← hmapb', hpost]
    rfl
  · have hts : t.stop = it.stop := by rw [← htt]
    omega

/-- C10 witness at the concrete input `%%%%`. -/
theorem c10_epilogue_last_witness :
    ([] : List Spanned) = [] ∧
      (⟨Token.epilogue, 2, 4⟩ : Spanned).stop = ("%%%%" : String).length :=
  c10_epilogue_last "%%%%" [⟨.percentPercent, 0, 2⟩] ⟨.epilogue, 2, 4⟩ []
    (by decide) (by decide)

/-- C4 (amended): after the mandatory type-name token, the `%type`
directive accepts zero or more rule names that are identifier tokens
only — a quoted-character token terminates the list (unlike the rule
name lists of `%token`, `%left`, `%right`, `%nonassoc`); the accepted
names are stored in order. -/
theorem c4_type_names :
    (∀ (input : List Char) (ts : List Spanned),
      typeRuleNames input ts =
        if ts.all (fun t => t.tok = Token.ident) then .error .unexpectedEnd
        else
          .ok ((ts.takeWhile (fun t => t.tok = Token.ident)).map
              (fun t => sliceStr input t.start t.stop),
            ts.dropWhile (fun t => t.tok = Token.ident))) ∧
    parse "%type <t> a b\n%%\nx: ;\n%%\n" =
      .ok ⟨[.type "<t>" ["a", "b"]], [⟨"x", [⟨[], none, none⟩]⟩], [], "\n"⟩ := by
  constructor
  · intro input ts
    induction ts with
    | nil => rw [typeRuleNames]; simp
    | cons t ts ih =>
      rw [typeRuleNames]
      by_cases h : t.tok = Token.ident
      · rw [if_pos h, ih]
        by_cases hall : ts.all (fun t => decide (t.tok = Token.ident)) = true
        · rw [if_pos hall]
          simp [List.all_cons, h, hall]
        · rw [if_neg hall]
          simp [List.all_cons, h, hall, List.takeWhile_cons, List.dropWhile_cons]
      · rw [if_neg h]
        simp [List.all_cons, h, List.takeWhile_cons, List.dropWhile_cons]
  · decide

/-- C4 counterexample: in `%type <t> a 'b' ...` the quoted-character
token is not accepted as a `%type` rule name; the directive stops at it
and the parse aborts expecting the separator, instead of storing
`["a", "'b'"]` as the claim implies. -/
theorem c4_type_names_cex :
    parse ("%type <t> a " ++ qs ++ "b" ++ qs ++ "\n%%\nx: ;\n%%\n") =
      .error (.expectFail .percentPercent .quotedChar (qs ++ "b" ++ qs) 12) := by decide

/-- C5 (amended): a prologue-block token's stored text is the token's
slice with the two characters of the opening delimiter trimmed from the
front and one character trimmed from the back — so the closing brace is
excluded but the `%` of the closing `%}` remains in the stored text. -/
theorem c5_prologue_slice (input : List Char) (t : Spanned) (ts : List Spanned)
    (h : t.tok = Token.prologue) :
    parsePrologue input (t :: ts) =
      .ok (sliceStr input (t.start + 2) (t.stop - 1), ts) := by
  unfold parsePrologue expect
  dsimp only
  rw [if_pos h]

/-- C5 witness at a concrete prologue token. -/
theorem c5_prologue_slice_witness :
    parsePrologue ("%\x7bab%\x7d" : String).toList [⟨Token.prologue, 0, 6⟩] =
      .ok ("ab%", []) := by
  have h := c5_prologue_slice ("%\x7bab%\x7d" : String).toList
    ⟨Token.prologue, 0, 6⟩ [] (by decide)
  rw [h]
  decide

/-- C5 counterexample: parsing `%{abc%}` stores the prologue text
`"abc%"`, which still contains the `%` of the closing delimiter, not the
slice strictly between the delimiters (`"abc"`). -/
theorem c5_prologue_cex :
    parse "%\x7babc%\x7d\n%%\nx: ;\n%%\n" =
      .ok ⟨[], [⟨"x", [⟨[], none, none⟩]⟩], ["abc%"], "\n"⟩ ∧
    ("abc%" : String) ≠ "abc" := by decide

/-- C6: the concrete input `%token NUM\n%%\nexpr: NUM { $$ = $1; } ;\n%%\n`
parses to exactly one `Token` directive with no type name and rule names
`["NUM"]`, no prologues, one rule `expr` with a single alternative whose
elements are `["NUM"]`, whose action is `"{ $$ = $1; }"` (braces
included) and which has no precedence, and epilogue text `"\n"`. -/
theorem c6_concrete :
    parse "%token NUM\n%%\nexpr: NUM \x7b $$ = $1; \x7d ;\n%%\n" =
      .ok ⟨[.token none ["NUM"]],
        [⟨"expr", [⟨["NUM"], none, some "\x7b $$ = $1; \x7d"⟩]⟩], [], "\n"⟩ := by decide

/-- C7: the concrete input `%left '+' '-'\n%%\na: ;\n%%\n` parses to a
single `Left` directive whose rule names are `["'+'", "'-'"]` (quotes
included) and a single rule `a` with one alternative having zero
elements, no precedence and no action. -/
theorem c7_concrete :
    parse ("%left " ++ qs ++ "+" ++ qs ++ " " ++ qs ++ "-" ++ qs ++ "\n%%\na: ;\n%%\n") =
      .ok ⟨[.left [qs ++ "+" ++ qs, qs ++ "-" ++ qs]],
        [⟨"a", [⟨[], none, none⟩]⟩], [], "\n"⟩ := by decide

/-- C8 (amended): whenever `Parser::expect` meets a token of the wrong
kind, the parse aborts with no document and the failure carries the
expected kind, the actual kind, the actual token text and the byte
offset; the rule-alternative terminator check is a separate immediate
failure that also aborts the whole parse but records only the found
token kind. -/
theorem c8_expect :
    (∀ (input : List Char) (k : Token) (t : Spanned) (ts : List Spanned),
      ¬t.tok = k →
      expect input k (t :: ts) =
        .error (.expectFail k t.tok (sliceStr input t.start t.stop) t.start)) ∧
    parse "a %% b" = .error (.expectFail .percentPercent .ident "a" 0) := by
  constructor
  · intro input k t ts h
    unfold expect
    dsimp only
    rw [if_neg h]
  · decide

/-- C8 witness at a concrete mismatched token. -/
theorem c8_expect_witness :
    expect ("a" : String).toList Token.percentPercent [⟨Token.ident, 0, 1⟩] =
      .error (.expectFail Token.percentPercent Token.ident "a" 0) := by
  have h := c8_expect.1 ("a" : String).toList Token.percentPercent
    ⟨Token.ident, 0, 1⟩ [] (by decide)
  rw [h]
  decide

/-- C8 counterexample: on input missing the closing `;` after a rule's
alternatives, the parse aborts through the terminator check's own
failure, which carries only the found token kind — not the expected
kind, the token text or the byte offset. -/
theorem c8_expect_cex :
    parse "%%\na: b\n%%\n" = .error (.badTerminator .epilogue) := by decide

/-- The grammar document used to exhibit the round-trip failure: one
`%token NUM` directive, one rule `expr` with one alternative
`NUM { $$ = $1; }`, no prologues, epilogue `"\n"` (the document of the
spec's own concrete scenario). -/
def c1Doc : Grammar :=
  ⟨[.token none ["NUM"]],
    [⟨"expr", [⟨["NUM"], none, some "\x7b $$ = $1; \x7d"⟩]⟩], [], "\n"⟩

/-- C1: re-parsing the printer's output does not reproduce the document:
the printer writes a `|` before every alternative (including the first),
so re-parsing adds a leading empty alternative to each rule, and it
prints the epilogue's lines after the `%%` line's newline, so the
epilogue gains a leading newline — `parse (render c1Doc)` yields a
different document. -/
theorem c1_roundtrip_bug :
    parse (render c1Doc) =
      .ok ⟨[.token none ["NUM"]],
        [⟨"expr", [⟨[], none, none⟩, ⟨["NUM"], none, some "\x7b $$ = $1; \x7d"⟩]⟩],
        [], "\n\n"⟩ ∧
    parse (render c1Doc) ≠ .ok c1Doc := by decide

end YaccRT